import Mathlib

/-!
# Verification of the Go expression calculator (Calculator.go)

Shallow embedding of the expression pipeline `tokenize` → `shuntingYard` →
`evalRPN` from `Calculator.go`, together with proofs of the specified
properties.

Modelling conventions:
* Go `float64` values are idealised as an inductive `Val`: exact rationals
  (`Val.rat`), signed infinities (`Val.inf`), `Val.nan`, and `Val.irr` for a
  finite value whose magnitude is not tracked (results of transcendental
  library calls such as `math.Sin` on a nonzero argument).  Arithmetic on
  small integers/decimals — the only values the verified claims inspect —
  is exact in `float64`, so the rational paths are faithful; IEEE special
  cases relevant to the claims (`math.Log` of a negative number is NaN,
  comparisons with NaN are false, `math.Pow(x, 0) = 1`) are modelled
  explicitly.
* Go strings are handled as `List Char` (the repository only ever deals
  with ASCII input; Go indexes bytes, which coincides with runes on ASCII).
* Go `error` returns become `Except String`, carrying the same messages.
* The operator table `ops` and function table `functions` have closed
  domains in the source (the lexer only ever emits members), so operator
  and function payloads are embedded as enumerations `OpSym` and `FName`.
-/

namespace Calculator

/-- Idealised `float64` value: exact rational, signed infinity, NaN, or an
untracked finite value (`irr`) produced by a transcendental library call. -/
inductive Val where
  | rat (q : ℚ)
  | inf (neg : Bool)
  | nan
  | irr
  deriving DecidableEq, Repr

/-- IEEE addition on modelled values (`a + b` in Go). -/
def addV : Val → Val → Val
  | .nan, _ => .nan
  | _, .nan => .nan
  | .inf s, .inf t => if s = t then .inf s else .nan
  | .inf s, _ => .inf s
  | _, .inf t => .inf t
  | .rat a, .rat b => .rat (a + b)
  | _, _ => .irr

/-- IEEE subtraction on modelled values (`a - b` in Go). -/
def subV : Val → Val → Val
  | .nan, _ => .nan
  | _, .nan => .nan
  | .inf s, .inf t => if s = t then .nan else .inf s
  | .inf s, _ => .inf s
  | _, .inf t => .inf (!t)
  | .rat a, .rat b => .rat (a - b)
  | _, _ => .irr

/-- IEEE multiplication on modelled values (`a * b` in Go).  Corners mixing
`irr` with infinities are not tracked (no verified claim reaches them). -/
def mulV : Val → Val → Val
  | .nan, _ => .nan
  | _, .nan => .nan
  | .inf s, .inf t => .inf (s != t)
  | .inf s, .rat b => if b = 0 then .nan else .inf (s != decide (b < 0))
  | .rat a, .inf t => if a = 0 then .nan else .inf (t != decide (a < 0))
  | .rat a, .rat b => .rat (a * b)
  | _, _ => .irr

/-- IEEE division on modelled values (`a / b` in Go).  In the pipeline this
is only reached with `b ≠ 0` (the evaluator guards division by zero). -/
def divV : Val → Val → Val
  | .nan, _ => .nan
  | _, .nan => .nan
  | .inf _, .inf _ => .nan
  | .rat _, .inf _ => .rat 0
  | .inf s, .rat b => .inf (s != decide (b < 0))
  | .rat a, .rat b => .rat (a / b)
  | _, _ => .irr

/-- IEEE negation (the `u-` entry of the `ops` table: `-b`). -/
def negV : Val → Val
  | .rat q => .rat (-q)
  | .inf s => .inf (!s)
  | .nan => .nan
  | .irr => .irr

/-- `math.Pow` on modelled values.  The special cases `Pow(x, 0) = 1` and
`Pow(1, y) = 1` hold for every `x`/`y` including NaN; a negative base with a
non-integer exponent is NaN.  Rational powers that stay rational are exact;
remaining corners are untracked (`irr`). -/
def powV : Val → Val → Val
  | _, .rat 0 => .rat 1
  | .rat 1, _ => .rat 1
  | .nan, _ => .nan
  | _, .nan => .nan
  | .rat a, .rat b =>
      if b.den = 1 then
        if 0 ≤ b.num then .rat (a ^ b.num.toNat)
        else if a = 0 then .inf false
        else .rat (a⁻¹ ^ (-b.num).toNat)
      else
        if a < 0 then .nan
        else if a = 0 then (if 0 < b then .rat 0 else .inf false)
        else .irr
  | _, _ => .irr

/-- IEEE `>` comparison; any comparison involving NaN is false, comparisons
with untracked values are not tracked (no verified claim reaches them). -/
def gtV : Val → Val → Bool
  | .nan, _ => false
  | _, .nan => false
  | .rat a, .rat b => a > b
  | .inf s, .inf t => !s && t
  | .inf s, _ => !s
  | _, .inf t => t
  | _, _ => false

/-- IEEE `<` comparison; any comparison involving NaN is false. -/
def ltV : Val → Val → Bool
  | .nan, _ => false
  | _, .nan => false
  | .rat a, .rat b => a < b
  | .inf s, .inf t => s && !t
  | .inf s, _ => s
  | _, .inf t => !t
  | _, _ => false

/-- Exact square root of a nonnegative rational, when it is rational. -/
def ratSqrt (q : ℚ) : Option ℚ :=
  let sn := Nat.sqrt q.num.toNat
  let sd := Nat.sqrt q.den
  if sn * sn = q.num.toNat ∧ sd * sd = q.den then some ((sn : ℚ) / (sd : ℚ))
  else none

/-- The `sqrt` entry of the `functions` table: errors on a negative
argument (`a[0] < 0` in the source), otherwise `math.Sqrt`. -/
def sqrtV : Val → Except String Val
  | .rat q =>
      if q < 0 then .error "sqrt de número negativo"
      else match ratSqrt q with
        | some r => .ok (.rat r)
        | none => .ok .irr
  | .inf true => .error "sqrt de número negativo"
  | .inf false => .ok (.inf false)
  | .nan => .ok .nan
  | .irr => .ok .irr

/-- `math.Log` (`ln`): NaN on a negative argument, `-Inf` at zero. -/
def lnV : Val → Val
  | .rat q => if q < 0 then .nan else if q = 0 then .inf true else if q = 1 then .rat 0 else .irr
  | .inf s => if s then .nan else .inf false
  | .nan => .nan
  | .irr => .irr

/-- `math.Log10` (`log`): same domain behaviour as `math.Log`. -/
def log10V : Val → Val
  | .rat q => if q < 0 then .nan else if q = 0 then .inf true else if q = 1 then .rat 0 else .irr
  | .inf s => if s then .nan else .inf false
  | .nan => .nan
  | .irr => .irr

/-- `math.Sin`: exact only at 0; NaN on NaN and on infinities. -/
def sinV : Val → Val
  | .rat q => if q = 0 then .rat 0 else .irr
  | .inf _ => .nan
  | .nan => .nan
  | .irr => .irr

/-- `math.Cos`: exact only at 0; NaN on NaN and on infinities. -/
def cosV : Val → Val
  | .rat q => if q = 0 then .rat 1 else .irr
  | .inf _ => .nan
  | .nan => .nan
  | .irr => .irr

/-- `math.Tan`: exact only at 0; NaN on NaN and on infinities. -/
def tanV : Val → Val
  | .rat q => if q = 0 then .rat 0 else .irr
  | .inf _ => .nan
  | .nan => .nan
  | .irr => .irr

/-- `math.Abs`. -/
def absV : Val → Val
  | .rat q => .rat |q|
  | .inf _ => .inf false
  | .nan => .nan
  | .irr => .irr

/-- `math.Floor`. -/
def floorV : Val → Val
  | .rat q => .rat (⌊q⌋ : ℤ)
  | .inf s => .inf s
  | .nan => .nan
  | .irr => .irr

/-- `math.Ceil`. -/
def ceilV : Val → Val
  | .rat q => .rat (⌈q⌉ : ℤ)
  | .inf s => .inf s
  | .nan => .nan
  | .irr => .irr

/-- `math.Round`: rounds half away from zero. -/
def roundV : Val → Val
  | .rat q => if 0 ≤ q then .rat (⌊q + 1/2⌋ : ℤ) else .rat (-(⌊-q + 1/2⌋ : ℤ))
  | .inf s => .inf s
  | .nan => .nan
  | .irr => .irr

/-! ## Tokens and fixed tables -/

/-- Operator symbols: the closed domain of the `ops` table
(`+ - * / ^ u- u+`). -/
inductive OpSym where
  | add | sub | mul | div | pow | uminus | uplus
  deriving DecidableEq, Repr

/-- Function names: the closed domain of the `functions` table. -/
inductive FName where
  | sin | cos | tan | sqrt | log | ln | abs | floor | ceil | round | max | min
  deriving DecidableEq, Repr

/-- The `tokenType` enumeration of the source. -/
inductive tokenType where
  | tNumber | tOp | tLParen | tRParen | tFunc | tComma | tIdent
  deriving DecidableEq, Repr

/-- A token.  The source pairs a `tokenType` with a string payload; here the
payload of operator and function tokens is the corresponding enumeration. -/
inductive token where
  | num (s : String)
  | op (o : OpSym)
  | lparen
  | rparen
  | func (f : FName)
  | comma
  | ident (name : String)
  deriving DecidableEq, Repr

instance : Inhabited token := ⟨.lparen⟩

/-- The `typ` field of a token. -/
def token.typ : token → tokenType
  | .num _ => .tNumber
  | .op _ => .tOp
  | .lparen => .tLParen
  | .rparen => .tRParen
  | .func _ => .tFunc
  | .comma => .tComma
  | .ident _ => .tIdent

/-- Precedence and associativity data of the `ops` table. -/
structure OpInfo where
  prec : Nat
  rightAssoc : Bool
  unary : Bool
  deriving DecidableEq, Repr

/-- The `ops` table (precedence / associativity / arity). -/
def opInfo : OpSym → OpInfo
  | .add => ⟨1, false, false⟩
  | .sub => ⟨1, false, false⟩
  | .mul => ⟨2, false, false⟩
  | .div => ⟨2, false, false⟩
  | .pow => ⟨3, true, false⟩
  | .uminus => ⟨4, true, true⟩
  | .uplus => ⟨4, true, true⟩

/-- The `fn` field of the `ops` table: binary entries use both operands,
unary entries (`u-`, `u+`) ignore the first (the source passes `0`). -/
def opApply : OpSym → Val → Val → Val
  | .add, a, b => addV a b
  | .sub, a, b => subV a b
  | .mul, a, b => mulV a b
  | .div, a, b => divV a b
  | .pow, a, b => powV a b
  | .uminus, _, b => negV b
  | .uplus, _, b => b

/-- String spelling of an operator token's `val` field. -/
def opStr : OpSym → String
  | .add => "+"
  | .sub => "-"
  | .mul => "*"
  | .div => "/"
  | .pow => "^"
  | .uminus => "u-"
  | .uplus => "u+"

/-- String spelling of a function name (always stored lowercased). -/
def fnameStr : FName → String
  | .sin => "sin"
  | .cos => "cos"
  | .tan => "tan"
  | .sqrt => "sqrt"
  | .log => "log"
  | .ln => "ln"
  | .abs => "abs"
  | .floor => "floor"
  | .ceil => "ceil"
  | .round => "round"
  | .max => "max"
  | .min => "min"

/-- Membership in the `functions` map, as used by the lexer. -/
def fnameOf : String → Option FName
  | "sin" => some .sin
  | "cos" => some .cos
  | "tan" => some .tan
  | "sqrt" => some .sqrt
  | "log" => some .log
  | "ln" => some .ln
  | "abs" => some .abs
  | "floor" => some .floor
  | "ceil" => some .ceil
  | "round" => some .round
  | "max" => some .max
  | "min" => some .min
  | _ => none

/-- The `constants` map.  `pi` and `e` are irrational, hence untracked. -/
def constants : String → Option Val
  | "pi" => some .irr
  | "e" => some .irr
  | _ => none

/-- The argument-count switch inside `evalRPN` (`max`/`min` take 2,
everything else takes 1). -/
def fnArgs : FName → Nat
  | .max => 2
  | .min => 2
  | _ => 1

/-- The `functions` table: each entry receives the argument slice in source
order (`a[0]` pushed first).  `max`/`min` keep the source's internal length
check; one-argument entries read `a[0]` (always present, since `evalRPN`
checks the stack size first). -/
def applyFunc : FName → List Val → Except String Val
  | .sin, a => .ok (sinV (a.headD .nan))
  | .cos, a => .ok (cosV (a.headD .nan))
  | .tan, a => .ok (tanV (a.headD .nan))
  | .sqrt, a => sqrtV (a.headD .nan)
  | .log, a => .ok (log10V (a.headD .nan))
  | .ln, a => .ok (lnV (a.headD .nan))
  | .abs, a => .ok (absV (a.headD .nan))
  | .floor, a => .ok (floorV (a.headD .nan))
  | .ceil, a => .ok (ceilV (a.headD .nan))
  | .round, a => .ok (roundV (a.headD .nan))
  | .max, a =>
      if a.length < 2 then .error "max precisa de 2 argumentos"
      else .ok (if gtV (a.headD .nan) (a[1]?.getD .nan) then a.headD .nan else a[1]?.getD .nan)
  | .min, a =>
      if a.length < 2 then .error "min precisa de 2 argumentos"
      else .ok (if ltV (a.headD .nan) (a[1]?.getD .nan) then a.headD .nan else a[1]?.getD .nan)

/-! ## Lexer (`tokenize`) -/

/-- `isIdentStart` from the source (letter or underscore). -/
def isIdentStart (c : Char) : Bool := c.isAlpha || c = '_'

/-- `isIdent` from the source (letter, digit or underscore). -/
def isIdentCh (c : Char) : Bool := c.isAlpha || c.isDigit || c = '_'

/-- Length of the numeral continuation scanned by the lexer's number loop
(the loop starting at `j := i + 1`): digits and dots freely, and at most one
`e`/`E` which may be followed immediately by a sign.  When the character
after an unsigned `e` is not a sign, the Go loop simply continues at it;
that continuation step is unfolded once here so the recursion is structural
(the unsigned character is a digit or dot, or else the loop stops). -/
def numLen : List Char → Bool → Nat
  | [], _ => 0
  | c :: cs, hasE =>
      if c.isDigit || c = '.' then numLen cs hasE + 1
      else if (c = 'e' || c = 'E') && !hasE then
        match cs with
        | d :: cs' =>
            if d = '+' || d = '-' then numLen cs' true + 2
            else if d.isDigit || d = '.' then numLen cs' true + 2
            else 1
        | [] => 1
      else 0

/-- Length of the identifier continuation scanned by the lexer. -/
def identLen : List Char → Nat
  | [] => 0
  | c :: cs => if isIdentCh c then identLen cs + 1 else 0

/-- `strings.TrimSpace`. -/
def trimChars (l : List Char) : List Char :=
  ((l.dropWhile Char.isWhitespace).reverse.dropWhile Char.isWhitespace).reverse

/-- One iteration of the lexer loop of the source, on current character
`c` with remaining input `rest`: either a lexical error, or the number of
extra characters consumed beyond `c`, the emitted token (`none` for
skipped whitespace) and the next `prevType`.  `toks` is only consulted for
the `len(toks) == 0` part of the unary test; note the source sets
`prevType = tIdent` after both function and identifier tokens. -/
def tokStep (c : Char) (rest : List Char) (toks : List token)
    (prevType : tokenType) : Except String (Nat × Option token × tokenType) :=
  if c.isWhitespace then .ok (0, none, prevType)
  else if c.isDigit || c = '.' then
    .ok (numLen rest false,
      some (.num (String.mk (c :: rest.take (numLen rest false)))), .tNumber)
  else if c = '+' || c = '-' then
    .ok (0,
      some (.op (if prevType = .tOp || prevType = .tLParen || toks = [] then
        (if c = '-' then .uminus else .uplus)
      else
        (if c = '-' then .sub else .add))), .tOp)
  else if c = '*' then .ok (0, some (.op .mul), .tOp)
  else if c = '/' then .ok (0, some (.op .div), .tOp)
  else if c = '^' then .ok (0, some (.op .pow), .tOp)
  else if c = '(' then .ok (0, some .lparen, .tLParen)
  else if c = ')' then .ok (0, some .rparen, .tRParen)
  else if c = ',' then .ok (0, some .comma, .tComma)
  else if isIdentStart c then
    match fnameOf (String.mk ((c :: rest.take (identLen rest)).map Char.toLower)) with
    | some f => .ok (identLen rest, some (.func f), .tIdent)
    | none =>
      if (constants (String.mk ((c :: rest.take (identLen rest)).map Char.toLower))).isSome
          || String.mk ((c :: rest.take (identLen rest)).map Char.toLower) = "ans" then
        .ok (identLen rest,
          some (.ident (String.mk ((c :: rest.take (identLen rest)).map Char.toLower))), .tIdent)
      else .error ("identificador desconhecido: " ++ String.mk (c :: rest.take (identLen rest)))
  else .error ("caractere inválido: " ++ String.mk [c])

/-- The main lexer loop: repeat `tokStep`, appending emitted tokens.

The loop advances by at least one character per iteration; `fuel` bounds
the number of iterations so the recursion is structural (with
`fuel ≥ cs.length` the zero-fuel branch is unreachable). -/
def tokenizeAux (fuel : Nat) (cs : List Char) (toks : List token)
    (prevType : tokenType) : Except String (List token) :=
  match cs with
  | [] => .ok toks
  | c :: rest =>
    match fuel with
    | 0 => .error "sem combustível"
    | fuel + 1 =>
      match tokStep c rest toks prevType with
      | .error e => .error e
      | .ok (n, none, pt') => tokenizeAux fuel (rest.drop n) toks pt'
      | .ok (n, some t, pt') => tokenizeAux fuel (rest.drop n) (toks ++ [t]) pt'

/-- `tokenize`: trim the line, then run the lexer loop with `prevType`
initialised to `tOp` ("as if the line started with an operator"). -/
def tokenize (s : String) : Except String (List token) :=
  tokenizeAux (trimChars s.data).length (trimChars s.data) [] .tOp

/-! ## `strconv.ParseFloat` (decimal forms)

Model of Go's `strconv.ParseFloat` restricted to the decimal syntax
`[sign] digits [. digits] [eE [sign] digits]` with at least one mantissa
digit and at least one exponent digit — the only shapes reachable from the
lexer's numeral scanner (payloads start with a digit or a dot and contain
only digits, dots, and one optional exponent marker).  A syntactically
valid numeral more than half an ULP beyond the largest finite `float64`
makes `strconv.ParseFloat` return `±Inf` together with an `ErrRange`
error, which `evalRPN` propagates; this out-of-range error is modelled
exactly (magnitude at least `2^1024 - 2^970`).  Finite in-range values are
kept as exact rationals rather than rounded to binary (the declared value
idealisation; the verified claims only evaluate small decimal literals,
where `float64` conversion is exact). -/

/-- Value of a digit string. -/
def digitsToNat (ds : List Char) : Nat :=
  ds.foldl (fun acc c => 10 * acc + (c.toNat - 48)) 0

/-- `strconv.ParseFloat` on a character list; `none` models a parse error. -/
def parseFloat (s : List Char) : Option ℚ :=
  let p : ℚ × List Char :=
    match s with
    | '+' :: r => (1, r)
    | '-' :: r => (-1, r)
    | _ => (1, s)
  let intPart := p.2.takeWhile Char.isDigit
  let r1 := p.2.dropWhile Char.isDigit
  let q : List Char × List Char :=
    match r1 with
    | '.' :: r => (r.takeWhile Char.isDigit, r.dropWhile Char.isDigit)
    | _ => ([], r1)
  if intPart.length + q.1.length = 0 then none
  else
    let mant : ℚ := p.1 * (digitsToNat (intPart ++ q.1) : ℚ) / ((10 ^ q.1.length : ℕ) : ℚ)
    match q.2 with
    | [] => some mant
    | e :: r3 =>
      if e = 'e' || e = 'E' then
        let pe : Bool × List Char :=
          match r3 with
          | '+' :: r => (false, r)
          | '-' :: r => (true, r)
          | _ => (false, r3)
        let eds := pe.2.takeWhile Char.isDigit
        if eds.length = 0 || (pe.2.dropWhile Char.isDigit).length ≠ 0 then none
        else some (if pe.1 then mant / ((10 ^ digitsToNat eds : ℕ) : ℚ)
                   else mant * ((10 ^ digitsToNat eds : ℕ) : ℚ))
      else none

/-- The error text Go reports for a syntactically invalid numeral. -/
def parseFloatErr (s : String) : String :=
  "strconv.ParseFloat: parsing \"" ++ s ++ "\": invalid syntax"

/-- The error text Go reports for an out-of-range numeral (`ErrRange`). -/
def parseFloatRangeErr (s : String) : String :=
  "strconv.ParseFloat: parsing \"" ++ s ++ "\": value out of range"

/-- Magnitudes at or above this bound are more than half an ULP beyond the
largest finite `float64` (`(2 - 2^-52) * 2^1023`), so they round to `±Inf`
and `strconv.ParseFloat` reports `ErrRange`.  The literal is
`2 ^ 1024 - 2 ^ 970`, as proved by `float64OverflowBound_eq` below. -/
def float64OverflowBound : ℚ := ((179769313486231580793728971405303415079934132710037826936173778980444968292764750946649017977587207096330286416692887910946555547851940402630657488671505820681908902000708383676273854845817711531764475730270069855571366959622842914819860834936475292719074168444365510704342711559699508093042880177904174497792 : ℕ) : ℚ)

/-- The overflow bound is `2 ^ 1024 - 2 ^ 970`. -/
lemma float64OverflowBound_eq :
    float64OverflowBound = ((2 ^ 1024 - 2 ^ 970 : ℕ) : ℚ) := by
  norm_num [float64OverflowBound]

/-- `strconv.ParseFloat` on the payload string of a number token: a syntax
error for malformed numerals, the `ErrRange` error for syntactically valid
numerals that overflow `float64`, and the exact value otherwise. -/
def strconvParseFloat (s : String) : Except String ℚ :=
  match parseFloat s.data with
  | none => .error (parseFloatErr s)
  | some v =>
      if float64OverflowBound ≤ |v| then .error (parseFloatRangeErr s)
      else .ok v

/-! ## Parser (`shuntingYard`) -/

/-- The pop condition of the operator case: the stack top `top` is popped
while `ops[top].prec > ops[curr].prec` or equal precedence with a
left-associative current operator. -/
def popCond (top curr : OpSym) : Bool :=
  (opInfo top).prec > (opInfo curr).prec
    || ((opInfo top).prec = (opInfo curr).prec && !(opInfo curr).rightAssoc)

/-- The operator case's inner loop: pop operators satisfying `popCond` off
the stack (head = top).  Returns (popped in pop order, remaining stack). -/
def popOps (curr : OpSym) : List token → List token × List token
  | [] => ([], [])
  | t :: st =>
      match t with
      | .op o =>
          if popCond o curr then
            let r := popOps curr st
            (t :: r.1, r.2)
          else ([], t :: st)
      | _ => ([], t :: st)

/-- Pop until a left parenthesis is at the top (used by the comma and
right-parenthesis cases).  Returns (popped tokens, remaining stack); the
remaining stack is either empty (no `(` found) or starts with the `(`. -/
def splitAtLParen : List token → List token × List token
  | [] => ([], [])
  | t :: st =>
      if t.typ = .tLParen then ([], t :: st)
      else
        let r := splitAtLParen st
        (t :: r.1, r.2)

/-- End-of-input unwinding: pop the remaining stack into the output,
failing on a leftover left parenthesis. -/
def syUnwind (stack output : List token) : Except String (List token) :=
  match stack with
  | [] => .ok output
  | t :: st =>
      if t.typ = .tLParen then .error "parênteses desbalanceados"
      else syUnwind st (output ++ [t])

/-- The `arity` map local to `shuntingYard`. -/
def syArity : FName → Option Nat
  | .sin => some 1
  | .cos => some 1
  | .tan => some 1
  | .sqrt => some 1
  | .log => some 1
  | .ln => some 1
  | .abs => some 1
  | .floor => some 1
  | .ceil => some 1
  | .round => some 1
  | .max => some 2
  | .min => some 2

/-- The post-pass over the output: every function token must be in the
`arity` map (defensive; with the closed `FName` domain it always is). -/
def checkFuncs : List token → Except String Unit
  | [] => .ok ()
  | t :: ts =>
      match t with
      | .func f =>
          match syArity f with
          | some _ => checkFuncs ts
          | none => .error ("função não suportada: " ++ fnameStr f)
      | _ => checkFuncs ts

/-- The main shunting-yard loop over the token sequence, carrying the
output sequence and the operator stack (head = top). -/
def syAux : List token → List token → List token → Except String (List token)
  | [], output, stack => syUnwind stack output
  | t :: ts, output, stack =>
      match t with
      | .num _ => syAux ts (output ++ [t]) stack
      | .ident _ => syAux ts (output ++ [t]) stack
      | .func _ => syAux ts output (t :: stack)
      | .comma =>
          let r := splitAtLParen stack
          if r.2 = [] then .error "vírgula fora de função"
          else syAux ts (output ++ r.1) r.2
      | .op o =>
          let r := popOps o stack
          syAux ts (output ++ r.1) (t :: r.2)
      | .lparen => syAux ts output (t :: stack)
      | .rparen =>
          match splitAtLParen stack with
          | (_, []) => .error "parênteses desbalanceados"
          | (popped, _ :: rest) =>
              match rest with
              | .func f :: rest' => syAux ts (output ++ popped ++ [.func f]) rest'
              | _ => syAux ts (output ++ popped) rest

/-- `shuntingYard`: run the loop, then the defensive function check. -/
def shuntingYard (toks : List token) : Except String (List token) :=
  match syAux toks [] [] with
  | .error e => .error e
  | .ok output =>
      match checkFuncs output with
      | .error e => .error e
      | .ok _ => .ok output

/-! ## Evaluator (`evalRPN`) -/

/-- The main loop of `evalRPN` over the postfix sequence, carrying the
operand stack (head = top) and the previous answer.  Token types other than
number/identifier/operator/function are skipped, exactly as the source's
`switch` (no `default` case).  Returns the final stack. -/
def evalRPNSteps (rpn : List token) (st : List Val) (lastAns : Val) :
    Except String (List Val) :=
  match rpn with
  | [] => .ok st
  | t :: ts =>
      match t with
      | .num s =>
          match strconvParseFloat s with
          | .ok q => evalRPNSteps ts (.rat q :: st) lastAns
          | .error e => .error e
      | .ident name =>
          if name = "ans" then evalRPNSteps ts (lastAns :: st) lastAns
          else
            match constants name with
            | some v => evalRPNSteps ts (v :: st) lastAns
            | none => .error ("identificador desconhecido: " ++ name)
      | .op o =>
          if (opInfo o).unary then
            match st with
            | b :: st' => evalRPNSteps ts (opApply o (.rat 0) b :: st') lastAns
            | [] => .error "operador unário sem operando"
          else
            match st with
            | b :: a :: st' =>
                if o = .div ∧ b = .rat 0 then .error "divisão por zero"
                else evalRPNSteps ts (opApply o a b :: st') lastAns
            | _ => .error "operador binário com poucos operandos"
      | .func f =>
          if st.length < fnArgs f then
            .error ("função " ++ fnameStr f ++ " com poucos argumentos")
          else
            match applyFunc f ((st.take (fnArgs f)).reverse) with
            | .ok v => evalRPNSteps ts (v :: st.drop (fnArgs f)) lastAns
            | .error e => .error e
      | .lparen => evalRPNSteps ts st lastAns
      | .rparen => evalRPNSteps ts st lastAns
      | .comma => evalRPNSteps ts st lastAns

/-- `evalRPN`: run the loop from an empty stack; the final stack must hold
exactly one value, which is the result. -/
def evalRPN (rpn : List token) (lastAns : Val) : Except String Val :=
  match evalRPNSteps rpn [] lastAns with
  | .error e => .error e
  | .ok [v] => .ok v
  | .ok _ => .error "expressão inválida"

/-- `evalExpr`: the full pipeline. -/
def evalExpr (expr : String) (lastAns : Val) : Except String Val :=
  match tokenize expr with
  | .error e => .error e
  | .ok toks =>
      match shuntingYard toks with
      | .error e => .error e
      | .ok rpn => evalRPN rpn lastAns

/-! ## Reference semantics for the pure binary-operator fragment

For the claim that the pipeline computes the standard precedence- and
associativity-correct value of every well-formed expression over
`+ - * / ^` and numeric literals, well-formed expressions are represented
by the standard layered grammar that encodes precedence and associativity
directly (this reference grammar and evaluator follow the specification's
words, to be compared with the pipeline):

  E ::= E + T | E - T | T          (additive, left-associative)
  T ::= T * F | T / F | F          (multiplicative, left-associative)
  F ::= lit ^ F | lit              (power, right-associative)
-/

/-- Power-level expressions (right-associative `^` over literals). -/
inductive FExp where
  | lit (s : String)
  | pow (s : String) (e : FExp)
  deriving DecidableEq, Repr

/-- Multiplicative-level expressions. -/
inductive TExp where
  | base (f : FExp)
  | mul (t : TExp) (f : FExp)
  | div (t : TExp) (f : FExp)
  deriving DecidableEq, Repr

/-- Additive-level expressions; a well-formed expression of the fragment. -/
inductive EExp where
  | base (t : TExp)
  | add (e : EExp) (t : TExp)
  | sub (e : EExp) (t : TExp)
  deriving DecidableEq, Repr

/-- Infix token sequence of a power-level expression. -/
def flattenF : FExp → List token
  | .lit s => [.num s]
  | .pow s e => .num s :: .op .pow :: flattenF e

/-- Infix token sequence of a multiplicative-level expression. -/
def flattenT : TExp → List token
  | .base f => flattenF f
  | .mul t f => flattenT t ++ .op .mul :: flattenF f
  | .div t f => flattenT t ++ .op .div :: flattenF f

/-- Infix token sequence of a well-formed expression. -/
def flattenE : EExp → List token
  | .base t => flattenT t
  | .add e t => flattenE e ++ .op .add :: flattenT t
  | .sub e t => flattenE e ++ .op .sub :: flattenT t

/-- Expected postfix sequence of a power-level expression. -/
def rpnF : FExp → List token
  | .lit s => [.num s]
  | .pow s e => .num s :: (rpnF e ++ [.op .pow])

/-- Expected postfix sequence of a multiplicative-level expression. -/
def rpnT : TExp → List token
  | .base f => rpnF f
  | .mul t f => rpnT t ++ (rpnF f ++ [.op .mul])
  | .div t f => rpnT t ++ (rpnF f ++ [.op .div])

/-- Expected postfix sequence of a well-formed expression. -/
def rpnE : EExp → List token
  | .base t => rpnT t
  | .add e t => rpnE e ++ (rpnT t ++ [.op .add])
  | .sub e t => rpnE e ++ (rpnT t ++ [.op .sub])

/-- Value of a numeric literal (as the evaluator reads it). -/
def evalNum (s : String) : Except String Val :=
  match strconvParseFloat s with
  | .ok q => .ok (.rat q)
  | .error e => .error e

/-- Reference value of a power-level expression: right-associative `^`. -/
def refEvalF : FExp → Except String Val
  | .lit s => evalNum s
  | .pow s e =>
      match evalNum s with
      | .error err => .error err
      | .ok a =>
          match refEvalF e with
          | .error err => .error err
          | .ok b => .ok (powV a b)

/-- Reference value of a multiplicative-level expression: left-associative
`*`/`/`, with the division-by-zero error of the evaluator. -/
def refEvalT : TExp → Except String Val
  | .base f => refEvalF f
  | .mul t f =>
      match refEvalT t with
      | .error err => .error err
      | .ok a =>
          match refEvalF f with
          | .error err => .error err
          | .ok b => .ok (mulV a b)
  | .div t f =>
      match refEvalT t with
      | .error err => .error err
      | .ok a =>
          match refEvalF f with
          | .error err => .error err
          | .ok b => if b = .rat 0 then .error "divisão por zero" else .ok (divV a b)

/-- Reference value of a well-formed expression: left-associative `+`/`-`
over the multiplicative level. -/
def refEvalE : EExp → Except String Val
  | .base t => refEvalT t
  | .add e t =>
      match refEvalE e with
      | .error err => .error err
      | .ok a =>
          match refEvalT t with
          | .error err => .error err
          | .ok b => .ok (addV a b)
  | .sub e t =>
      match refEvalE e with
      | .error err => .error err
      | .ok a =>
          match refEvalT t with
          | .error err => .error err
          | .ok b => .ok (subV a b)

/-- Parse-then-evaluate: the pipeline applied to an already-lexed token
sequence. -/
def evalTokens (toks : List token) (lastAns : Val) : Except String Val :=
  match shuntingYard toks with
  | .error e => .error e
  | .ok rpn => evalRPN rpn lastAns

/-! ## Shunting-yard correctness on the binary-operator fragment -/

/-- Stack condition: empty, or an operator of precedence at most `k` on
top (within the fragment the stack only ever holds operator tokens). -/
def stkLE (k : Nat) (S : List token) : Prop :=
  S = [] ∨ ∃ o S', S = .op o :: S' ∧ (opInfo o).prec ≤ k

/-- Continuation condition: the remaining input is empty or starts with
one of the given binary operators. -/
def headIn (l : List OpSym) (rest : List token) : Prop :=
  rest = [] ∨ ∃ o rest', rest = .op o :: rest' ∧ o ∈ l

lemma stkLE_mono {j k : Nat} (h : j ≤ k) {S : List token} (hS : stkLE j S) :
    stkLE k S := by
  rcases hS with rfl | ⟨o, S', rfl, ho⟩
  · exact Or.inl rfl
  · exact Or.inr ⟨o, S', rfl, ho.trans h⟩

lemma headIn_mono {l l' : List OpSym} (h : ∀ o ∈ l, o ∈ l')
    {rest : List token} (hr : headIn l rest) : headIn l' rest := by
  rcases hr with rfl | ⟨o, r, rfl, ho⟩
  · exact Or.inl rfl
  · exact Or.inr ⟨o, r, rfl, h o ho⟩

/-- A current `^` pops nothing off a stack whose top precedence is ≤ 3
(`^` is right-associative). -/
lemma popOps_pow_eq (S : List token) (h : stkLE 3 S) : popOps .pow S = ([], S) := by
  rcases h with rfl | ⟨o, S', rfl, ho⟩
  · rfl
  · cases o <;> simp_all [popOps, popCond, opInfo]

/-- A current `*` or `/` pops nothing off a stack whose top precedence
is ≤ 1. -/
lemma popOps_mulDiv_eq (c : OpSym) (hc : c = .mul ∨ c = .div)
    (S : List token) (h : stkLE 1 S) : popOps c S = ([], S) := by
  rcases h with rfl | ⟨o, S', rfl, ho⟩
  · rfl
  · rcases hc with rfl | rfl <;> cases o <;> simp_all [popOps, popCond, opInfo]

/-- Flushing a pending operator: running the remaining input with `w` on
top of the stack equals emitting `w` first, provided the input is empty or
its first operator pops `w`. -/
lemma sy_flush (w : OpSym) (rest out : List token) (S : List token)
    (h : rest = [] ∨ ∃ o rest', rest = .op o :: rest' ∧ popCond w o = true) :
    syAux rest out (.op w :: S) = syAux rest (out ++ [.op w]) S := by
  rcases h with rfl | ⟨o, rest', rfl, ho⟩
  · simp [syAux, syUnwind, token.typ]
  · simp [syAux, popOps, ho]

/-- Processing the infix form of a power-level expression appends its
postfix form to the output and leaves the stack unchanged. -/
lemma syAux_flattenF (f : FExp) :
    ∀ rest out S, headIn [.add, .sub, .mul, .div] rest → stkLE 3 S →
      syAux (flattenF f ++ rest) out S = syAux rest (out ++ rpnF f) S := by
  induction f with
  | lit s =>
    intro rest out S _ _
    simp [flattenF, rpnF, syAux]
  | pow s e ih =>
    intro rest out S hrest hS
    have hpop : popOps .pow S = ([], S) := popOps_pow_eq S hS
    have hstep :
        syAux (flattenF (.pow s e) ++ rest) out S =
          syAux (flattenF e ++ rest) (out ++ [.num s]) (.op .pow :: S) := by
      simp [flattenF, syAux, hpop]
    rw [hstep, ih rest (out ++ [token.num s]) (token.op .pow :: S) hrest
        (Or.inr ⟨.pow, S, rfl, by norm_num [opInfo]⟩)]
    rw [sy_flush .pow rest _ S ?hpops]
    · simp [rpnF]
    case hpops =>
      rcases hrest with rfl | ⟨o, r, rfl, ho⟩
      · exact Or.inl rfl
      · refine Or.inr ⟨o, r, rfl, ?_⟩
        fin_cases ho <;> decide

/-- Processing the infix form of a multiplicative-level expression appends
its postfix form to the output and leaves the stack unchanged. -/
lemma syAux_flattenT (t : TExp) :
    ∀ rest out S, headIn [.add, .sub, .mul, .div] rest → stkLE 1 S →
      syAux (flattenT t ++ rest) out S = syAux rest (out ++ rpnT t) S := by
  induction t with
  | base f =>
    intro rest out S hrest hS
    exact syAux_flattenF f rest out S hrest (stkLE_mono (by norm_num) hS)
  | mul t1 f1 iht =>
    intro rest out S hrest hS
    have h1 : flattenT (.mul t1 f1) ++ rest =
        flattenT t1 ++ (.op .mul :: (flattenF f1 ++ rest)) := by
      simp [flattenT]
    rw [h1, iht _ out S (Or.inr ⟨.mul, _, rfl, by simp⟩) hS]
    have hpop : popOps .mul S = ([], S) := popOps_mulDiv_eq .mul (Or.inl rfl) S hS
    have hstep :
        syAux (.op .mul :: (flattenF f1 ++ rest)) (out ++ rpnT t1) S =
          syAux (flattenF f1 ++ rest) (out ++ rpnT t1) (.op .mul :: S) := by
      simp [syAux, hpop]
    rw [hstep, syAux_flattenF f1 rest _ (.op .mul :: S) hrest
        (Or.inr ⟨.mul, S, rfl, by norm_num [opInfo]⟩)]
    rw [sy_flush .mul rest _ S ?hpops]
    · simp [rpnT]
    case hpops =>
      rcases hrest with rfl | ⟨o, r, rfl, ho⟩
      · exact Or.inl rfl
      · refine Or.inr ⟨o, r, rfl, ?_⟩
        fin_cases ho <;> decide
  | div t1 f1 iht =>
    intro rest out S hrest hS
    have h1 : flattenT (.div t1 f1) ++ rest =
        flattenT t1 ++ (.op .div :: (flattenF f1 ++ rest)) := by
      simp [flattenT]
    rw [h1, iht _ out S (Or.inr ⟨.div, _, rfl, by simp⟩) hS]
    have hpop : popOps .div S = ([], S) := popOps_mulDiv_eq .div (Or.inr rfl) S hS
    have hstep :
        syAux (.op .div :: (flattenF f1 ++ rest)) (out ++ rpnT t1) S =
          syAux (flattenF f1 ++ rest) (out ++ rpnT t1) (.op .div :: S) := by
      simp [syAux, hpop]
    rw [hstep, syAux_flattenF f1 rest _ (.op .div :: S) hrest
        (Or.inr ⟨.div, S, rfl, by norm_num [opInfo]⟩)]
    rw [sy_flush .div rest _ S ?hpops]
    · simp [rpnT]
    case hpops =>
      rcases hrest with rfl | ⟨o, r, rfl, ho⟩
      · exact Or.inl rfl
      · refine Or.inr ⟨o, r, rfl, ?_⟩
        fin_cases ho <;> decide

/-- Processing the infix form of a well-formed expression from an empty
stack appends its postfix form to the output. -/
lemma syAux_flattenE (e : EExp) :
    ∀ rest out, headIn [.add, .sub] rest →
      syAux (flattenE e ++ rest) out [] = syAux rest (out ++ rpnE e) [] := by
  induction e with
  | base t =>
    intro rest out hrest
    exact syAux_flattenT t rest out []
      (headIn_mono (by intro o ho; fin_cases ho <;> simp) hrest) (Or.inl rfl)
  | add e1 t1 ihe =>
    intro rest out hrest
    have h1 : flattenE (.add e1 t1) ++ rest =
        flattenE e1 ++ (.op .add :: (flattenT t1 ++ rest)) := by
      simp [flattenE]
    rw [h1, ihe _ out (Or.inr ⟨.add, _, rfl, by simp⟩)]
    have hstep :
        syAux (.op .add :: (flattenT t1 ++ rest)) (out ++ rpnE e1) [] =
          syAux (flattenT t1 ++ rest) (out ++ rpnE e1) [.op .add] := by
      simp [syAux, popOps]
    rw [hstep, syAux_flattenT t1 rest _ [.op .add]
        (headIn_mono (by intro o ho; fin_cases ho <;> simp) hrest)
        (Or.inr ⟨.add, [], rfl, by norm_num [opInfo]⟩)]
    rw [sy_flush .add rest _ [] ?hpops]
    · simp [rpnE]
    case hpops =>
      rcases hrest with rfl | ⟨o, r, rfl, ho⟩
      · exact Or.inl rfl
      · refine Or.inr ⟨o, r, rfl, ?_⟩
        fin_cases ho <;> decide
  | sub e1 t1 ihe =>
    intro rest out hrest
    have h1 : flattenE (.sub e1 t1) ++ rest =
        flattenE e1 ++ (.op .sub :: (flattenT t1 ++ rest)) := by
      simp [flattenE]
    rw [h1, ihe _ out (Or.inr ⟨.sub, _, rfl, by simp⟩)]
    have hstep :
        syAux (.op .sub :: (flattenT t1 ++ rest)) (out ++ rpnE e1) [] =
          syAux (flattenT t1 ++ rest) (out ++ rpnE e1) [.op .sub] := by
      simp [syAux, popOps]
    rw [hstep, syAux_flattenT t1 rest _ [.op .sub]
        (headIn_mono (by intro o ho; fin_cases ho <;> simp) hrest)
        (Or.inr ⟨.sub, [], rfl, by norm_num [opInfo]⟩)]
    rw [sy_flush .sub rest _ [] ?hpops]
    · simp [rpnE]
    case hpops =>
      rcases hrest with rfl | ⟨o, r, rfl, ho⟩
      · exact Or.inl rfl
      · refine Or.inr ⟨o, r, rfl, ?_⟩
        fin_cases ho <;> decide

/-- The defensive post-pass never fails: the `arity` map lists every
member of the closed function domain. -/
lemma checkFuncs_ok (l : List token) : checkFuncs l = .ok () := by
  induction l with
  | nil => rfl
  | cons t ts ih => cases t <;> try exact ih
                    all_goals (rename_i f; first
                      | exact ih
                      | (cases f <;> simp [checkFuncs, syArity, ih]))

/-- `shuntingYard` compiles the infix form of every well-formed expression
of the binary fragment to its standard postfix form. -/
theorem shuntingYard_flattenE (e : EExp) :
    shuntingYard (flattenE e) = .ok (rpnE e) := by
  have h := syAux_flattenE e [] [] (Or.inl rfl)
  simp only [List.append_nil, List.nil_append] at h
  simp [shuntingYard, h, syAux, syUnwind, checkFuncs_ok]

/-! ## Evaluator correctness on the binary-operator fragment -/

/-- Executing the postfix form of a power-level expression pushes its
reference value (or fails with its reference error). -/
lemma evalSteps_rpnF (f : FExp) :
    ∀ rest st ans, evalRPNSteps (rpnF f ++ rest) st ans =
      match refEvalF f with
      | .ok v => evalRPNSteps rest (v :: st) ans
      | .error err => .error err := by
  induction f with
  | lit s =>
    intro rest st ans
    cases hp : strconvParseFloat s <;>
      simp [rpnF, refEvalF, evalNum, evalRPNSteps, hp]
  | pow s e ih =>
    intro rest st ans
    have h1 : rpnF (.pow s e) ++ rest = .num s :: (rpnF e ++ ([.op .pow] ++ rest)) := by
      simp [rpnF]
    rw [h1]
    cases hp : strconvParseFloat s with
    | error err => simp [evalRPNSteps, hp, refEvalF, evalNum]
    | ok q =>
      simp only [evalRPNSteps, hp, ih]
      cases he : refEvalF e with
      | error err => simp [refEvalF, evalNum, hp, he]
      | ok b => simp [refEvalF, evalNum, hp, he, evalRPNSteps, opInfo, opApply]

/-- Executing the postfix form of a multiplicative-level expression pushes
its reference value (or fails with its reference error). -/
lemma evalSteps_rpnT (t : TExp) :
    ∀ rest st ans, evalRPNSteps (rpnT t ++ rest) st ans =
      match refEvalT t with
      | .ok v => evalRPNSteps rest (v :: st) ans
      | .error err => .error err := by
  induction t with
  | base f =>
    intro rest st ans
    simpa [rpnT, refEvalT] using evalSteps_rpnF f rest st ans
  | mul t1 f1 iht =>
    intro rest st ans
    have h1 : rpnT (.mul t1 f1) ++ rest = rpnT t1 ++ (rpnF f1 ++ ([.op .mul] ++ rest)) := by
      simp [rpnT]
    rw [h1, iht]
    cases ht : refEvalT t1 with
    | error err => simp [refEvalT, ht]
    | ok a =>
      dsimp only
      rw [evalSteps_rpnF f1]
      cases hf : refEvalF f1 with
      | error err => simp [refEvalT, ht, hf]
      | ok b => simp [refEvalT, ht, hf, evalRPNSteps, opInfo, opApply]
  | div t1 f1 iht =>
    intro rest st ans
    have h1 : rpnT (.div t1 f1) ++ rest = rpnT t1 ++ (rpnF f1 ++ ([.op .div] ++ rest)) := by
      simp [rpnT]
    rw [h1, iht]
    cases ht : refEvalT t1 with
    | error err => simp [refEvalT, ht]
    | ok a =>
      dsimp only
      rw [evalSteps_rpnF f1]
      cases hf : refEvalF f1 with
      | error err => simp [refEvalT, ht, hf]
      | ok b =>
        by_cases hb : b = .rat 0 <;>
          simp [refEvalT, ht, hf, evalRPNSteps, opInfo, opApply, hb]

/-- Executing the postfix form of a well-formed expression pushes its
reference value (or fails with its reference error). -/
lemma evalSteps_rpnE (e : EExp) :
    ∀ rest st ans, evalRPNSteps (rpnE e ++ rest) st ans =
      match refEvalE e with
      | .ok v => evalRPNSteps rest (v :: st) ans
      | .error err => .error err := by
  induction e with
  | base t =>
    intro rest st ans
    simpa [rpnE, refEvalE] using evalSteps_rpnT t rest st ans
  | add e1 t1 ihe =>
    intro rest st ans
    have h1 : rpnE (.add e1 t1) ++ rest = rpnE e1 ++ (rpnT t1 ++ ([.op .add] ++ rest)) := by
      simp [rpnE]
    rw [h1, ihe]
    cases he : refEvalE e1 with
    | error err => simp [refEvalE, he]
    | ok a =>
      dsimp only
      rw [evalSteps_rpnT t1]
      cases ht : refEvalT t1 with
      | error err => simp [refEvalE, he, ht]
      | ok b => simp [refEvalE, he, ht, evalRPNSteps, opInfo, opApply]
  | sub e1 t1 ihe =>
    intro rest st ans
    have h1 : rpnE (.sub e1 t1) ++ rest = rpnE e1 ++ (rpnT t1 ++ ([.op .sub] ++ rest)) := by
      simp [rpnE]
    rw [h1, ihe]
    cases he : refEvalE e1 with
    | error err => simp [refEvalE, he]
    | ok a =>
      dsimp only
      rw [evalSteps_rpnT t1]
      cases ht : refEvalT t1 with
      | error err => simp [refEvalE, he, ht]
      | ok b => simp [refEvalE, he, ht, evalRPNSteps, opInfo, opApply]

/-- `evalRPN` of the standard postfix form equals the reference value. -/
theorem evalRPN_rpnE (e : EExp) (ans : Val) :
    evalRPN (rpnE e) ans = refEvalE e := by
  have h := evalSteps_rpnE e [] [] ans
  rw [List.append_nil] at h
  cases he : refEvalE e <;> simp [he] at h <;> simp [evalRPN, h, evalRPNSteps]

/-! ## Lexer sign disambiguation -/

/-- Tokens produced from a `+` or `-` character. -/
def isSignTok : token → Bool
  | .op .add => true
  | .op .sub => true
  | .op .uminus => true
  | .op .uplus => true
  | _ => false

/-- Unary classification of a sign token (`u-`/`u+`). -/
def isUnaryTok : token → Bool
  | .op .uminus => true
  | .op .uplus => true
  | _ => false

/-- "The token is an operator or a left parenthesis." -/
def opOrLParen (t : token) : Bool :=
  t.typ = .tOp || t.typ = .tLParen

/-- The `prevType` value after emitting `t`: the source sets `tIdent` after
a function token and the token's own type otherwise. -/
def effTyp (t : token) : tokenType :=
  match t with
  | .func _ => .tIdent
  | _ => t.typ

/-- The `prevType` determined by the output emitted so far. -/
def ptOf (toks : List token) : tokenType :=
  match toks.getLast? with
  | none => .tOp
  | some t => effTyp t

/-- Sign-classification property: every emitted sign token is unary exactly
when it is the first token or follows an operator or left-parenthesis
token. -/
def SignProp (l : List token) : Prop :=
  ∀ i t, l[i]? = some t → isSignTok t = true →
    (isUnaryTok t = true ↔
      (i = 0 ∨ ∃ p, l[i - 1]? = some p ∧ opOrLParen p = true))

lemma ptOf_append (toks : List token) (t : token) :
    ptOf (toks ++ [t]) = effTyp t := by
  simp [ptOf, List.getLast?_concat]

/-- The lexer's unary test (on the `prevType` accumulator) coincides with
the specification's phrasing (first token, or previous token an operator
or left parenthesis). -/
lemma signCond_iff (toks : List token) :
    ((ptOf toks = tokenType.tOp || ptOf toks = tokenType.tLParen ||
        decide (toks = [])) = true) ↔
      (toks = [] ∨ ∃ p, toks.getLast? = some p ∧ opOrLParen p = true) := by
  rcases h : toks.getLast? with _ | p
  · have hnil : toks = [] := List.getLast?_eq_none_iff.mp h
    subst hnil
    simp [ptOf]
  · have hne : toks ≠ [] := by
      rintro rfl
      simp at h
    have hpt : ptOf toks = effTyp p := by simp [ptOf, h]
    rw [hpt]
    constructor
    · intro hb
      refine Or.inr ⟨p, rfl, ?_⟩
      simp only [hne, decide_eq_true_eq, Bool.or_eq_true, decide_eq_true_iff] at hb
      rcases hb with (hb | hb) | hb
      · cases p <;> simp_all [effTyp, opOrLParen, token.typ]
      · cases p <;> simp_all [effTyp, opOrLParen, token.typ]
      · exact hb.elim
    · rintro (h' | ⟨p', hp', hop⟩)
      · exact absurd h' hne
      · cases hp'
        cases p <;> simp_all [effTyp, opOrLParen, token.typ]

/-- Appending one token preserves the sign property, provided the new
token (when a sign) is unary exactly when the accumulated output is empty
or ends with an operator or left parenthesis. -/
lemma signProp_append (acc : List token) (t : token) (h : SignProp acc)
    (ht : isSignTok t = true →
      (isUnaryTok t = true ↔
        (acc = [] ∨ ∃ p, acc.getLast? = some p ∧ opOrLParen p = true))) :
    SignProp (acc ++ [t]) := by
  intro i u hi hsign
  by_cases hlt : i < acc.length
  · rw [List.getElem?_append_left hlt] at hi
    rw [h i u hi hsign]
    constructor
    · rintro (rfl | ⟨p, hp, hop⟩)
      · exact Or.inl rfl
      · exact Or.inr ⟨p, by rwa [List.getElem?_append_left (by omega)], hop⟩
    · rintro (rfl | ⟨p, hp, hop⟩)
      · exact Or.inl rfl
      · exact Or.inr ⟨p, by rwa [List.getElem?_append_left (by omega)] at hp, hop⟩
  · have hle : acc.length ≤ i := Nat.le_of_not_lt hlt
    have hieq : i = acc.length := by
      by_contra hne
      have h1 : acc.length + 1 ≤ i := by omega
      rw [List.getElem?_append_right hle] at hi
      have hge : (i - acc.length) ≥ 1 := by omega
      rcases Nat.exists_eq_add_of_le hge with ⟨k, hk⟩
      have hk2 : i - acc.length = k + 1 := by omega
      rw [hk2] at hi
      simp at hi
    subst hieq
    rw [List.getElem?_append_right hle, Nat.sub_self] at hi
    have hut : u = t := by simpa using hi.symm
    subst hut
    rw [ht hsign]
    rcases Decidable.em (acc = []) with rfl | hne
    · simp
    · have hpos : 0 < acc.length := List.length_pos.mpr hne
      have hprev : (acc ++ [u])[acc.length - 1]? = acc.getLast? := by
        rw [List.getElem?_append_left (by omega), List.getLast?_eq_getElem?]
      constructor
      · rintro (h' | ⟨p, hp, hop⟩)
        · exact absurd h' hne
        · exact Or.inr ⟨p, by rwa [← hprev] at hp, hop⟩
      · rintro (h' | ⟨p, hp, hop⟩)
        · exact Or.inl (List.length_eq_zero.mp h')
        · exact Or.inr ⟨p, by rwa [hprev] at hp, hop⟩

/-- Non-sign tokens satisfy the side condition of `signProp_append`
vacuously. -/
lemma signProp_append_nonsign (acc : List token) (t : token)
    (h : SignProp acc) (ht : isSignTok t = false) : SignProp (acc ++ [t]) :=
  signProp_append acc t h (fun hs => by rw [ht] at hs; cases hs)

/-- Characterisation of a successful lexer step: a whitespace step keeps
`prevType`; an emitting step sets `prevType` to the emitted token's
effective type, and an emitted sign token is unary exactly when the
source's unary test held. -/
lemma tokStep_spec (c : Char) (rest : List Char) (toks : List token)
    (pt : tokenType) (n : Nat) (ot : Option token) (pt' : tokenType)
    (h : tokStep c rest toks pt = .ok (n, ot, pt')) :
    (ot = none → pt' = pt) ∧
    (∀ t, ot = some t → pt' = effTyp t ∧
      (isSignTok t = true →
        (isUnaryTok t = true ↔
          (pt = tokenType.tOp || pt = tokenType.tLParen ||
            decide (toks = [])) = true))) := by
  unfold tokStep at h
  by_cases h1 : c.isWhitespace = true
  · rw [if_pos h1] at h
    cases h
    exact ⟨fun _ => rfl, fun t ht => by cases ht⟩
  rw [if_neg h1] at h
  by_cases h2 : (c.isDigit || c = '.') = true
  · rw [if_pos h2] at h
    cases h
    refine ⟨(fun hn => nomatch hn), fun t ht => ?_⟩
    cases ht
    exact ⟨rfl, fun hs => by simp [isSignTok] at hs⟩
  rw [if_neg h2] at h
  by_cases h3 : (c = '+' || c = '-') = true
  · rw [if_pos h3] at h
    cases h
    refine ⟨(fun hn => nomatch hn), fun t ht => ?_⟩
    cases ht
    refine ⟨rfl, fun _ => ?_⟩
    by_cases hcond : (pt = tokenType.tOp || pt = tokenType.tLParen ||
        decide (toks = [])) = true
    · rw [if_pos hcond]
      have hu : isUnaryTok (.op (if c = '-' then OpSym.uminus else OpSym.uplus)) = true := by
        split <;> rfl
      rw [hu]
      simp only [true_iff]
      exact hcond
    · rw [if_neg hcond]
      have hu : isUnaryTok (.op (if c = '-' then OpSym.sub else OpSym.add)) = false := by
        split <;> rfl
      rw [hu]
      simp only [Bool.false_eq_true, false_iff]
      exact hcond
  rw [if_neg h3] at h
  by_cases h4 : c = '*'
  · rw [if_pos h4] at h
    cases h
    refine ⟨(fun hn => nomatch hn), fun t ht => ?_⟩
    cases ht
    exact ⟨rfl, fun hs => by simp [isSignTok] at hs⟩
  rw [if_neg h4] at h
  by_cases h5 : c = '/'
  · rw [if_pos h5] at h
    cases h
    refine ⟨(fun hn => nomatch hn), fun t ht => ?_⟩
    cases ht
    exact ⟨rfl, fun hs => by simp [isSignTok] at hs⟩
  rw [if_neg h5] at h
  by_cases h6 : c = '^'
  · rw [if_pos h6] at h
    cases h
    refine ⟨(fun hn => nomatch hn), fun t ht => ?_⟩
    cases ht
    exact ⟨rfl, fun hs => by simp [isSignTok] at hs⟩
  rw [if_neg h6] at h
  by_cases h7 : c = '('
  · rw [if_pos h7] at h
    cases h
    refine ⟨(fun hn => nomatch hn), fun t ht => ?_⟩
    cases ht
    exact ⟨rfl, fun hs => by simp [isSignTok] at hs⟩
  rw [if_neg h7] at h
  by_cases h8 : c = ')'
  · rw [if_pos h8] at h
    cases h
    refine ⟨(fun hn => nomatch hn), fun t ht => ?_⟩
    cases ht
    exact ⟨rfl, fun hs => by simp [isSignTok] at hs⟩
  rw [if_neg h8] at h
  by_cases h9 : c = ','
  · rw [if_pos h9] at h
    cases h
    refine ⟨(fun hn => nomatch hn), fun t ht => ?_⟩
    cases ht
    exact ⟨rfl, fun hs => by simp [isSignTok] at hs⟩
  rw [if_neg h9] at h
  by_cases h10 : isIdentStart c = true
  · rw [if_pos h10] at h
    cases hf : fnameOf (String.mk ((c :: rest.take (identLen rest)).map Char.toLower)) with
    | some f =>
      rw [hf] at h
      cases h
      refine ⟨(fun hn => nomatch hn), fun t ht => ?_⟩
      cases ht
      exact ⟨rfl, fun hs => by simp [isSignTok] at hs⟩
    | none =>
      rw [hf] at h
      by_cases h11 : ((constants (String.mk ((c :: rest.take (identLen rest)).map
          Char.toLower))).isSome ||
          String.mk ((c :: rest.take (identLen rest)).map Char.toLower) = "ans") = true
      · rw [if_pos h11] at h
        cases h
        refine ⟨(fun hn => nomatch hn), fun t ht => ?_⟩
        cases ht
        exact ⟨rfl, fun hs => by simp [isSignTok] at hs⟩
      · rw [if_neg h11] at h
        cases h
  · rw [if_neg h10] at h
    cases h

/-- Invariant proof for the lexer loop: starting from an output satisfying
the sign property whose `prevType` is consistent, any successful run ends
with an output satisfying the sign property. -/
lemma tokenizeAux_signProp :
    ∀ (fuel : Nat) (cs : List Char) (toks : List token),
      SignProp toks →
      ∀ res, tokenizeAux fuel cs toks (ptOf toks) = .ok res → SignProp res := by
  intro fuel
  induction fuel with
  | zero =>
    intro cs toks hsp res hres
    cases cs with
    | nil => cases hres; assumption
    | cons c rest => cases hres
  | succ fuel ih =>
    intro cs toks hsp res hres
    cases cs with
    | nil => cases hres; assumption
    | cons c rest =>
      rw [tokenizeAux] at hres
      cases hstep : tokStep c rest toks (ptOf toks) with
      | error e => rw [hstep] at hres; cases hres
      | ok v =>
        obtain ⟨n, ot, pt2⟩ := v
        rw [hstep] at hres
        have hspec := tokStep_spec c rest toks (ptOf toks) n ot pt2 hstep
        cases ot with
        | none =>
          have hpt : pt2 = ptOf toks := hspec.1 rfl
          subst hpt
          exact ih _ _ hsp res hres
        | some t =>
          obtain ⟨hpt, hsign⟩ := hspec.2 t rfl
          subst hpt
          refine ih _ _ (signProp_append _ _ hsp fun hs => ?_) res
            (by rw [ptOf_append]; exact hres)
          rw [hsign hs]
          exact signCond_iff toks

/-- A successful run of `tokenize` satisfies the sign property. -/
theorem tokenize_signProp (s : String) (toks : List token)
    (h : tokenize s = .ok toks) : SignProp toks :=
  tokenizeAux_signProp _ _ [] (fun i t hi => by cases hi) toks h

/-! ## The verified claims -/

/-- C1: for every well-formed expression over the binary operators
`+ - * / ^` and numeric literals (the layered grammar `EExp`), running the
lexer-produced token sequence through `shuntingYard` and `evalRPN` yields
exactly the standard precedence- and associativity-correct reference value
(including the division-by-zero error cases); in particular the full
pipeline gives `2+2*3 = 8`, `2^3^2 = 512` (right-associative `^`) and
`10-3-2 = 5` (left-associative `-`), for every previous answer. -/
theorem C1_binary_fragment_correct :
    (∀ (e : EExp) (ans : Val), evalTokens (flattenE e) ans = refEvalE e)
    ∧ (∀ ans, evalExpr "2+2*3" ans = .ok (.rat 8))
    ∧ (∀ ans, evalExpr "2^3^2" ans = .ok (.rat 512))
    ∧ (∀ ans, evalExpr "10-3-2" ans = .ok (.rat 5)) := by
  refine ⟨fun e ans => ?_, fun _ => by with_unfolding_all rfl,
    fun _ => by with_unfolding_all rfl, fun _ => by with_unfolding_all rfl⟩
  unfold evalTokens
  rw [shuntingYard_flattenE]
  exact evalRPN_rpnE e ans

/-- C2: in every successfully lexed line, a `+`/`-` token is classified as
unary exactly when it is the first emitted token or the immediately
preceding emitted token is an operator or a left parenthesis; in every
other case (after a number, identifier, right parenthesis, or argument
separator) it is binary. -/
theorem C2_sign_classification (s : String) (toks : List token)
    (h : tokenize s = .ok toks) :
    ∀ i t, toks[i]? = some t → isSignTok t = true →
      (isUnaryTok t = true ↔
        (i = 0 ∨ ∃ p, toks[i - 1]? = some p ∧ opOrLParen p = true)) :=
  tokenize_signProp s toks h

/-- Witness for C2 at the input `"1+-2"`: the `-` (position 2) follows the
binary `+` and is classified unary. -/
theorem C2_sign_classification_witness :
    isUnaryTok (token.op .uminus) = true ↔
      (2 = 0 ∨ ∃ p, ([token.num "1", token.op .add, token.op .uminus,
        token.num "2"] : List token)[2 - 1]? = some p ∧ opOrLParen p = true) :=
  C2_sign_classification "1+-2"
    [token.num "1", token.op .add, token.op .uminus, token.num "2"]
    rfl 2 (token.op .uminus) rfl rfl

/-- C3 (behaviour at the claimed inputs): `max(3,9)` evaluates to `9`, but
`min(4,-2)` does **not** evaluate to `-2`: the lexer classifies the `-`
after the argument separator as binary subtraction (`prevType` is `tComma`
after a comma), so the evaluator computes `4 - 2`, leaves a single value
where `min` expects two arguments, and fails with the too-few-arguments
error — contradicting the specification (and the program's own `:help`
example `min(4, -2)`). -/
theorem C3_min_max_behaviour (ans : Val) :
    evalExpr "max(3,9)" ans = .ok (.rat 9)
    ∧ tokenize "min(4,-2)" = .ok [.func .min, .lparen, .num "4", .comma,
        .op .sub, .num "2", .rparen]
    ∧ evalExpr "min(4,-2)" ans = .error "função min com poucos argumentos" :=
  ⟨by with_unfolding_all rfl, rfl, by with_unfolding_all rfl⟩

/-- C4: whenever `evalRPN` applies the binary `/` with popped right operand
`b = 0`, it fails with the division-by-zero error without computing the
quotient, whatever follows; in particular `1/0` fails with that error (and
hence never returns a value, let alone an infinity or NaN). -/
theorem C4_division_by_zero :
    (∀ (rest : List token) (a : Val) (st : List Val) (ans : Val),
      evalRPNSteps (.op .div :: rest) (.rat 0 :: a :: st) ans =
        .error "divisão por zero")
    ∧ (∀ ans, evalExpr "1/0" ans = .error "divisão por zero") := by
  refine ⟨fun rest a st ans => ?_, fun _ => by with_unfolding_all rfl⟩
  simp [evalRPNSteps, opInfo]

/-- C5: applying `sqrt` to any negative operand fails with the domain error
(no NaN is produced); in particular `sqrt(-1)` fails with that error. -/
theorem C5_sqrt_negative :
    (∀ (q : ℚ) (st : List Val) (rest : List token) (ans : Val), q < 0 →
      evalRPNSteps (.func .sqrt :: rest) (.rat q :: st) ans =
        .error "sqrt de número negativo")
    ∧ (∀ ans, evalExpr "sqrt(-1)" ans = .error "sqrt de número negativo") := by
  refine ⟨fun q st rest ans hq => ?_, fun _ => by with_unfolding_all rfl⟩
  simp [evalRPNSteps, fnArgs, applyFunc, sqrtV, hq]

/-- Witness for C5 at `q = -1` on postfix `[sqrt]` with stack `[-1]`. -/
theorem C5_sqrt_negative_witness :
    ((-1 : ℚ) < 0)
    ∧ evalRPNSteps [.func .sqrt] [.rat (-1)] (.rat 0) =
        .error "sqrt de número negativo" :=
  ⟨by norm_num, C5_sqrt_negative.1 (-1) [] [] (.rat 0) (by norm_num)⟩

/-- C6: `evalRPN` returns a value exactly when the run over all postfix
tokens succeeds with a final operand stack holding exactly that one value;
an error-free run ending with zero or several values yields the
invalid-expression error. -/
theorem C6_terminal_stack (rpn : List token) (ans : Val) :
    (∀ v, evalRPN rpn ans = .ok v ↔ evalRPNSteps rpn [] ans = .ok [v])
    ∧ (∀ st, evalRPNSteps rpn [] ans = .ok st → st.length ≠ 1 →
        evalRPN rpn ans = .error "expressão inválida") := by
  cases hst : evalRPNSteps rpn [] ans with
  | error e =>
    refine ⟨fun v => ?_, fun st h1 _ => nomatch h1⟩
    unfold evalRPN
    rw [hst]
    simp
  | ok st =>
    constructor
    · intro v
      unfold evalRPN
      rw [hst]
      match st with
      | [] => simp
      | [w] => simp
      | w :: x :: rest => simp
    · intro st' h1 hlen
      cases h1
      unfold evalRPN
      rw [hst]
      match st, hlen with
      | [], _ => rfl
      | [w], hlen => exact absurd rfl hlen
      | w :: x :: rest, _ => rfl

/-- Witness for C6: the postfix sequence `1 2` runs without error to a
final stack of two values, so `evalRPN` reports the invalid-expression
error. -/
theorem C6_terminal_stack_witness :
    evalRPN [token.num "1", token.num "2"] (.rat 0) =
      .error "expressão inválida" :=
  (C6_terminal_stack [token.num "1", token.num "2"] (.rat 0)).2
    [.rat 2, .rat 1] (by with_unfolding_all rfl) (by decide)

/-- Counterexample to C7 as stated: the lexer accepts the input `"." `
producing the Number token `"."`, whose payload does not parse as a
floating-point numeral, so the parse-error branch of `evalRPN` is
reachable. -/
theorem C7_counterexample :
    tokenize "." = .ok [token.num "."]
    ∧ strconvParseFloat "." = .error (parseFloatErr ".")
    ∧ evalExpr "." (.rat 0) = .error (parseFloatErr ".") :=
  ⟨rfl, rfl, rfl⟩

/-- C7 as amended: not every Number-token payload produced by the lexer
parses as a floating-point numeral — the numeral scanner accepts payloads
(such as `"."`) that `strconv.ParseFloat` rejects — so the
floating-point-parse error branch in `evalRPN` is reachable on
lexer-produced token sequences; in particular the input `"."` reaches it
for every previous answer. -/
theorem C7_amended_parse_error_reachable (ans : Val) :
    tokenize "." = .ok [token.num "."]
    ∧ evalExpr "." ans = .error (parseFloatErr ".") :=
  ⟨rfl, rfl⟩

/-- The other unparseable-payload path of `strconv.ParseFloat`: the lexer
also accepts numerals whose value overflows `float64`, where Go reports the
`ErrRange` error, which the pipeline propagates. -/
lemma evalExpr_overflow_range_error (ans : Val) :
    tokenize "1e309" = .ok [token.num "1e309"]
    ∧ strconvParseFloat "1e309" = .error (parseFloatRangeErr "1e309")
    ∧ evalExpr "1e309" ans = .error (parseFloatRangeErr "1e309") :=
  ⟨rfl, by with_unfolding_all rfl, by with_unfolding_all rfl⟩

/-- C8: a function token whose arity (2 for `max`/`min`, 1 otherwise)
exceeds the operand-stack size fails with the too-few-arguments error; in
particular `max(3)` fails with it. -/
theorem C8_function_arity :
    (∀ (f : FName) (st : List Val) (rest : List token) (ans : Val),
      st.length < fnArgs f →
      evalRPNSteps (.func f :: rest) st ans =
        .error ("função " ++ fnameStr f ++ " com poucos argumentos"))
    ∧ (∀ ans, evalExpr "max(3)" ans = .error "função max com poucos argumentos") := by
  refine ⟨fun f st rest ans hlt => ?_, fun _ => by with_unfolding_all rfl⟩
  simp [evalRPNSteps, hlt]

/-- Witness for C8: `max` applied to an empty stack. -/
theorem C8_function_arity_witness :
    evalRPNSteps [.func .max] [] (.rat 0) =
      .error ("função " ++ fnameStr .max ++ " com poucos argumentos") :=
  C8_function_arity.1 .max [] [] (.rat 0) (by decide)

/-- C9: `--3` succeeds and returns `3`: both leading signs lex as unary
minus and the evaluator chains them into a double negation. -/
theorem C9_double_negation (ans : Val) :
    tokenize "--3" = .ok [.op .uminus, .op .uminus, .num "3"]
    ∧ evalExpr "--3" ans = .ok (.rat 3) :=
  ⟨rfl, by with_unfolding_all rfl⟩

/-- C10: only `sqrt` has a domain guard, so `ln(-1)` and `log(-1)` succeed
and return NaN (as a value, not an error), for every previous answer. -/
theorem C10_nan_success (ans : Val) :
    evalExpr "ln(-1)" ans = .ok .nan
    ∧ evalExpr "log(-1)" ans = .ok .nan :=
  ⟨by with_unfolding_all rfl, by with_unfolding_all rfl⟩

end Calculator
